import Mathlib

/-!
Verification of the Corvid20 bitmask-enum facility
(`includes/enums/bitmask_enum.h`).

A bitmask enum value is modelled by the bit pattern of its underlying
integer, a `Nat` below `2 ^ width`.  The per-type compile-time data
(`enum_spec_v`) is modelled by the `EnumSpec` structure: the bit width
and signedness of the underlying type, the `valid_bits_v` mask (a raw
`uint64_t`), and the `wrapclip::limit` flag (`bit_clip_v`).
-/

namespace Corvid.Bitmask

/-- The compile-time specification attached to a bitmask enum `E`:
underlying-type bit width and signedness, `valid_bits_v<E>` and
`bit_clip_v<E>`. -/
structure EnumSpec where
  width : Nat
  signed : Bool
  validBits : Nat
  bitClip : Bool

/-- `2 ^ 64`, the modulus of `uint64_t` / `size_t` arithmetic. -/
def mask64 : Nat := 2 ^ 64

/-- `max_value<E>()` = `E(valid_bits_v<E>)`: the `uint64_t` mask cast to
the underlying type, which truncates it to `width` bits. -/
def max_value (s : EnumSpec) : Nat := s.validBits % 2 ^ s.width

/-- `min_value<E>()`, always zero. -/
def min_value (_s : EnumSpec) : Nat := 0

/-- `bits_length<E>()` = `std::bit_width(valid_bits_v<E>)`. -/
def bits_length (s : EnumSpec) : Nat := Nat.size s.validBits

/-- The bit pattern produced by converting the underlying-typed value `u`
(`std::underlying_type_t<E>`, possibly negative) to `width` bits
(two's complement). -/
def to_pattern (s : EnumSpec) (u : Int) : Nat := (u % ((2 ^ s.width : Nat) : Int)).toNat

/-- `to_integer<size_t>(v)` = `static_cast<size_t>(v)`: zero-extends an
unsigned underlying type and sign-extends a signed one. -/
def to_integer_size (s : EnumSpec) (v : Nat) : Nat :=
  if s.signed && v.testBit (s.width - 1) then (v + (mask64 - 2 ^ s.width)) % mask64
  else v % mask64

/-- `range_length<E>()` = `to_integer<size_t>(max_value<E>()) + 1` in
`size_t` arithmetic. -/
def range_length (s : EnumSpec) : Nat := (to_integer_size s (max_value s) + 1) % mask64

/-- `operator~`: under `wrapclip::limit` this is `v ^ max_value`,
otherwise the full complement of the underlying integer. -/
def op_compl (s : EnumSpec) (v : Nat) : Nat :=
  if s.bitClip then v ^^^ max_value s else v ^^^ (2 ^ s.width - 1)

/-- `operator-`: `l & ~r`. -/
def op_sub (s : EnumSpec) (l r : Nat) : Nat := l &&& op_compl s r

/-- `operator-=`: `l = l - r`; the value assigned to (and returned
through) the left operand. -/
def op_sub_assign (s : EnumSpec) (l r : Nat) : Nat := op_sub s l r

/-- `flip(v)` = `v ^ max_value<E>()`. -/
def flip (s : EnumSpec) (v : Nat) : Nat := v ^^^ max_value s

/-- `make_safely(u)` = `static_cast<E>(u) & max_value<E>()`. -/
def make_safely (s : EnumSpec) (u : Int) : Nat := to_pattern s u &&& max_value s

/-- `make(u)`: `make_safely` under `wrapclip::limit`, plain cast
otherwise. -/
def make (s : EnumSpec) (u : Int) : Nat :=
  if s.bitClip then make_safely s u else to_pattern s u

/-- The value of a 32-bit signed `int` whose bit pattern is `p`
(two's complement). -/
def as_int32 (p : Nat) : Int := if p < 2 ^ 31 then (p : Int) else (p : Int) - 2 ^ 32

/-- `make_at(ndx)` = `make(1 << (ndx - 1))`.  The shifted `1` is a
32-bit `int`: for shift counts `0..31` the result is `2 ^ (ndx - 1)`
reduced mod `2 ^ 32` and read back as a signed `int` (the C++20 modular
shift), so `ndx = 32` produces `INT_MIN` and sign-extends when
converted to a wider underlying type; a shift count of `32` or more
(`ndx = 0` wraps the `size_t` subtraction, `ndx ≥ 33` overshoots) is
undefined behavior, modelled as `none`. -/
def make_at (s : EnumSpec) (ndx : Nat) : Option Nat :=
  if 1 ≤ ndx ∧ ndx - 1 < 32 then some (make s (as_int32 (2 ^ (ndx - 1) % 2 ^ 32)))
  else none

/-- `set(v, m)` = `v + m` = `v | m`. -/
def set (_s : EnumSpec) (v m : Nat) : Nat := v ||| m

/-- `clear(v, m)` = `v - m`. -/
def clear (s : EnumSpec) (v m : Nat) : Nat := op_sub s v m

/-- `has(v, m)`: whether `v` has any of the bits in `m` set. -/
def has (v m : Nat) : Bool := v &&& m != 0

/-- `has_all(v, m)`: whether `v` has all the bits in `m` set. -/
def has_all (v m : Nat) : Bool := v &&& m == m

/-- Hexadecimal rendering of a number, lowercase digits, no prefix. -/
def hex_str (n : Nat) : String := (Nat.toDigits 16 n).asString

/-- Modelled from the spec: `strings::append_num<16>` from the
numeric-conversion collaborator (not under `src/`): appends the value in
base 16 to the target. -/
def append_num16 (target : String) (n : Nat) : String := target ++ hex_str n

/-- Modelled from the spec: `strings::delim(" + ").append_skip_first`
from the string collaborator (not under `src/`): appends the `" + "`
join separator unless this is the first piece, and clears the
first-piece flag. -/
def append_skip_first (target : String) (first : Bool) : String × Bool :=
  if first then (target, false) else (target ++ " + ", false)

/-- The loop of `do_bit_append`: `ndx` runs from `N` down to `1`; a bit
that is matched and named is printed and removed from the working
copy.  An undefined `make_at` shift poisons the whole loop
(`none`). -/
def bit_loop (s : EnumSpec) (names : List String) (N : Nat) :
    Nat → String × Bool × Nat → Option (String × Bool × Nat)
  | 0, st => some st
  | c + 1, (t, first, v) =>
    (make_at s (c + 1)).bind fun mask =>
      let name := names.getD (N - (c + 1)) ""
      if has v mask ∧ name ≠ "" then
        let p := append_skip_first t first
        bit_loop s names N c (p.1 ++ name, p.2, v &&& ((2 ^ s.width - 1) ^^^ mask))
      else bit_loop s names N c (t, first, v)

/-- `details::do_bit_append`: render a value against a per-bit name
table, then print any residual in hex; `none` when the loop hits an
undefined shift. -/
def do_bit_append (s : EnumSpec) (names : List String) (target : String) (v : Nat) :
    Option String :=
  (bit_loop s names names.length names.length (target, true, v)).map fun r =>
    if r.2.2 ≠ 0 ∨ r.2.1 = true then append_num16 (append_skip_first r.1 r.2.1).1 r.2.2
    else r.1

/-- The linear-search loop of `do_value_append`: `ndx` runs from
`valid_part` down to `0` (the counter argument is `ndx + 1`), printing
and removing every named combination fully contained in the remaining
value, stopping early once no valid bits remain. -/
def value_loop (s : EnumSpec) (names : List String) :
    Nat → String × Bool × Nat → String × Bool × Nat
  | 0, st => st
  | c + 1, (t, first, v) =>
    let mask := c % 2 ^ s.width
    let name := names.getD c ""
    if has_all v mask ∧ name ≠ "" then
      let p := append_skip_first t first
      let t2 := p.1 ++ name
      let v2 := v &&& ((2 ^ s.width - 1) ^^^ mask)
      if to_integer_size s v2 &&& s.validBits = 0 then (t2, p.2, v2)
      else value_loop s names c (t2, p.2, v2)
    else value_loop s names c (t, first, v)

/-- `details::do_value_append`: render a value against a
per-combination name table: direct lookup of the valid-bit portion
first, otherwise a linear search, then any residual in hex. -/
def do_value_append (s : EnumSpec) (names : List String) (target : String) (v : Nat) :
    String :=
  let validPart := to_integer_size s v &&& s.validBits
  let st1 : String × Bool × Nat :=
    if names.getD validPart "" ≠ "" then
      ((append_skip_first target true).1 ++ names.getD validPart "", false,
        (to_integer_size s v &&& ((mask64 - 1) ^^^ s.validBits)) % 2 ^ s.width)
    else (target, true, v)
  let st2 := if st1.2.1 = true then value_loop s names (validPart + 1) st1 else st1
  if st2.2.2 ≠ 0 ∨ st2.2.1 = true then append_num16 (append_skip_first st2.1 st2.2.1).1 st2.2.2
  else st2.1

/-- `bitmask_enum_names_spec::append`: dispatch on the name-table
length — per-bit when it equals the bit width, per-combination when
non-empty, plain hex otherwise. -/
def names_spec_append (s : EnumSpec) (names : List String) (target : String) (v : Nat) :
    Option String :=
  if names.length = bits_length s then do_bit_append s names target v
  else if names.length ≠ 0 then some (do_value_append s names target v)
  else some (append_num16 target v)

/-- Splitting a character list on the comma delimiter, keeping empty
pieces. -/
def split_commas : List Char → List String
  | [] => [""]
  | c :: rest =>
    let r := split_commas rest
    if c = ',' then "" :: r
    else
      match r with
      | [] => [String.mk [c]]
      | piece :: more => String.mk (c :: piece.data) :: more

/-- Modelled from the spec: `strings::fixed_split` from the fixed-string
component (not under `src/`): partitions a literal on the comma
delimiter into pieces, preserving order and empty pieces. -/
def fixed_split (str : String) : List String := split_commas str.data

/-- Whether the literal starts with the comma delimiter
(`bit_names.view().starts_with(",")`). -/
def starts_with_comma (str : String) : Bool :=
  match str.data with
  | c :: _ => c = ','
  | [] => false

/-- `details::calc_valid_bits_from_bit_names`: rejects a leading comma
(the `static_assert`, modelled as `none`), then sets one valid bit per
non-empty name, the last name owning the lsb, in `uint64_t`
arithmetic. -/
def calc_valid_bits_from_bit_names (bit_names : String) : Option Nat :=
  if starts_with_comma bit_names then none
  else
    some (((fixed_split bit_names).reverse.foldl
      (fun acc name => (if name ≠ "" then acc.1 ||| acc.2 else acc.1, acc.2 * 2 % mask64))
      (0, 1)).1)

/-- `details::calc_valid_bits_from_value_names`: ORs together every
index (from 1 up) whose name is non-empty. -/
def calc_valid_bits_from_value_names (value_names : String) : Nat :=
  let arr := fixed_split value_names
  (List.range arr.length).foldl
    (fun acc i => if 1 ≤ i ∧ arr.getD i "" ≠ "" then acc ||| i else acc) 0

/-- Follows the specification's description of per-bit rendering: scan
bit positions from most- to least-significant; a set bit with a
non-empty name contributes that name and is cleared from the working
copy.  Returns the collected names and the residue. -/
def spec_scan (names : List String) : Nat → Nat → List String × Nat
  | 0, v => ([], v)
  | p + 1, v =>
    let name := names.getD (names.length - (p + 1)) ""
    if v.testBit p ∧ name ≠ "" then
      let r := spec_scan names p (v ^^^ 2 ^ p)
      (name :: r.1, r.2)
    else spec_scan names p v

/-- The tail of a `" + "`-join: every piece is preceded by the
separator. -/
def plus_join : List String → String
  | [] => ""
  | n :: rest => " + " ++ n ++ plus_join rest

/-- Pieces joined by `" + "` for all but the first. -/
def spec_joined : List String → String
  | [] => ""
  | n :: rest => n ++ plus_join rest

/-- Follows the specification's description of per-bit rendering: the
collected names joined by `" + "` for all but the first, followed by
the residual value in hexadecimal iff bits remain set or nothing was
printed. -/
def spec_bit_render (names : List String) (target : String) (v : Nat) : String :=
  let r := spec_scan names names.length v
  if r.1.isEmpty then target ++ hex_str r.2
  else if r.2 ≠ 0 then target ++ spec_joined r.1 ++ " + " ++ hex_str r.2
  else target ++ spec_joined r.1

/-- Accumulator form of joining with `" + "`, skipping the separator
before the first piece. -/
def append_all (t : String) (first : Bool) : List String → String
  | [] => t
  | n :: rest =>
    if first then append_all (t ++ n) false rest else append_all (t ++ " + " ++ n) false rest

/-- A 32-entry per-bit name table naming only the msb (bit 31) and the
lsb (bit 0), for a 64-bit underlying type. -/
def bitNames32 : List String := "b31" :: List.replicate 30 "" ++ ["b0"]

end Corvid.Bitmask

namespace Corvid.Bitmask

theorem to_pattern_lt (s : EnumSpec) (u : Int) : to_pattern s u < 2 ^ s.width := by
  unfold to_pattern
  have hpos : (0 : Int) < ((2 ^ s.width : Nat) : Int) := by positivity
  have h := Int.emod_lt_of_pos u hpos
  omega

theorem to_integer_size_lt (s : EnumSpec) (v : Nat) : to_integer_size s v < mask64 := by
  unfold to_integer_size
  split <;> exact Nat.mod_lt _ (by unfold mask64; positivity)

theorem max_value_lt (s : EnumSpec) : max_value s < 2 ^ s.width :=
  Nat.mod_lt _ (by positivity)

theorem testBit_false_of_lt {x : Nat} {n i : Nat} (hx : x < 2 ^ n) (hi : n ≤ i) :
    x.testBit i = false := by
  apply Nat.testBit_eq_false_of_lt
  exact lt_of_lt_of_le hx (Nat.pow_le_pow_right (by norm_num) hi)

theorem testBit_max_value (s : EnumSpec) (i : Nat) :
    (max_value s).testBit i = (decide (i < s.width) && s.validBits.testBit i) := by
  unfold max_value
  exact Nat.testBit_mod_two_pow s.validBits s.width i

/-- C3: for every underlying-type value `u` (negative and out-of-range
included), `make_safely` returns `u`'s bit pattern masked to
`valid_bits_v`, and the result never has a bit set outside
`valid_bits_v`. -/
theorem make_safely_masks (s : EnumSpec) (u : Int) :
    make_safely s u = to_pattern s u &&& s.validBits ∧
      ∀ i, s.validBits.testBit i = false → (make_safely s u).testBit i = false := by
  constructor
  · apply Nat.eq_of_testBit_eq
    intro i
    unfold make_safely
    rw [Nat.testBit_land, Nat.testBit_land, testBit_max_value]
    by_cases hi : i < s.width
    · simp [hi]
    · have : (to_pattern s u).testBit i = false :=
        testBit_false_of_lt (to_pattern_lt s u) (by omega)
      simp [this]
  · intro i hvb
    unfold make_safely
    rw [Nat.testBit_land, testBit_max_value, hvb]
    simp

/-- C5: `range_length<E>()` equals `max_value<E>()` plus one interpreted
as a `size_t` count, and it wraps around to `0` exactly when the
`size_t` value of `max_value<E>()` is the maximum of that integer
type. -/
theorem range_length_spec (s : EnumSpec) :
    range_length s = (to_integer_size s (max_value s) + 1) % mask64 ∧
      (range_length s = 0 ↔ to_integer_size s (max_value s) = mask64 - 1) := by
  refine ⟨rfl, ?_⟩
  unfold range_length
  have hlt := to_integer_size_lt s (max_value s)
  have hm : 0 < mask64 := by unfold mask64; positivity
  constructor
  · intro h
    rcases Nat.lt_or_ge (to_integer_size s (max_value s) + 1) mask64 with hc | hc
    · rw [Nat.mod_eq_of_lt hc] at h
      omega
    · omega
  · intro h
    rw [h]
    have : mask64 - 1 + 1 = mask64 := by omega
    rw [this, Nat.mod_self]

/-- C8: for every spec (with `valid_bits` within the underlying width)
and every value `v`, invalid bits included, `flip (flip v) = v`, and
`flip v` differs from `v` exactly on the bits of `valid_bits_v` (it is
the XOR with `max_value`), so it never sets or clears an invalid bit. -/
theorem flip_flip (s : EnumSpec) (v : Nat) (hvb : s.validBits < 2 ^ s.width) :
    flip s (flip s v) = v ∧ flip s v ^^^ v = max_value s ∧
      ∀ i, (flip s v).testBit i ≠ v.testBit i ↔ s.validBits.testBit i = true := by
  have hmv : max_value s = s.validBits := Nat.mod_eq_of_lt hvb
  refine ⟨?_, ?_, ?_⟩
  · unfold flip
    rw [Nat.xor_assoc, Nat.xor_self, Nat.xor_zero]
  · unfold flip
    rw [Nat.xor_comm v (max_value s), Nat.xor_assoc, Nat.xor_self, Nat.xor_zero]
  · intro i
    unfold flip
    rw [Nat.testBit_xor, hmv]
    cases hb : s.validBits.testBit i <;> cases hv : v.testBit i <;> simp

/-- Closed witness for `flip_flip` at a concrete spec and value. -/
theorem flip_flip_witness :
    (3 : Nat) < 2 ^ (4 : Nat) ∧
      flip ⟨4, false, 3, false⟩ (flip ⟨4, false, 3, false⟩ 9) = 9 :=
  ⟨by decide, (flip_flip ⟨4, false, 3, false⟩ 9 (by decide)).1⟩

theorem lt_width_of_testBit {x n i : Nat} (hx : x < 2 ^ n) (h : x.testBit i = true) :
    i < n := by
  by_contra hge
  rw [testBit_false_of_lt hx (by omega)] at h
  exact Bool.noConfusion h

theorem size_eq_of_lt {n k : Nat} (h1 : 2 ^ k ≤ n) (h2 : n < 2 ^ (k + 1)) :
    Nat.size n = k + 1 :=
  le_antisymm (Nat.size_le.mpr h2) (Nat.lt_size.mpr h1)

theorem to_pattern_ofNat (s : EnumSpec) (n : Nat) (h : n < 2 ^ s.width) :
    to_pattern s (n : Int) = n := by
  unfold to_pattern
  rw [Int.emod_eq_of_lt (by positivity) (by exact_mod_cast h)]
  norm_cast

theorem make_at_defined (s : EnumSpec) (c : Nat) (hw : s.width ≤ 32) (hc : c < s.width) :
    make_at s (c + 1) = some (make s ((2 ^ c : Nat) : Int)) := by
  unfold make_at
  rw [if_pos (show 1 ≤ c + 1 ∧ c + 1 - 1 < 32 by omega), Nat.add_sub_cancel]
  have hc32 : c < 32 := by omega
  have hmod : 2 ^ c % 2 ^ 32 = 2 ^ c :=
    Nat.mod_eq_of_lt (Nat.pow_lt_pow_right (by norm_num) hc32)
  rw [hmod]
  by_cases h31 : c < 31
  · have ha : as_int32 (2 ^ c) = ((2 ^ c : Nat) : Int) := by
      unfold as_int32
      rw [if_pos (Nat.pow_lt_pow_right (by norm_num) h31)]
    rw [ha]
  · have hc31 : c = 31 := by omega
    have hw32 : s.width = 32 := by omega
    subst hc31
    have ha : as_int32 (2 ^ 31) = ((2 ^ 31 : Nat) : Int) - 2 ^ 32 := by
      unfold as_int32
      rw [if_neg (by norm_num)]
    rw [ha]
    have hpe : to_pattern s (((2 ^ 31 : Nat) : Int) - 2 ^ 32) =
        to_pattern s ((2 ^ 31 : Nat) : Int) := by
      unfold to_pattern
      rw [hw32]
      decide
    congr 1
    unfold make make_safely
    rw [hpe]

/-- C1 counterexample: under `wrapclip::limit` with an invalid bit set in
the left operand, `l - r` does not equal `*l & ~*r` with the full
complement of `r`: the spec has `width` 4 and `valid_bits` 3, and
`4 - 0` drops `l`'s invalid bit. -/
theorem sub_full_compl_ce :
    op_sub ⟨4, false, 3, true⟩ 4 0 ≠ 4 &&& ((2 ^ (4 : Nat) - 1) ^^^ 0) := by
  decide

/-- C1 (amended): `l - r` equals `*l & ~*r` (full complement of the
underlying integer) whenever clip mode is not `limit`, and also under
`limit` whenever `l` has no invalid bits; under `limit` it is in general
`*l & *flip(r)`.  `l -= r` assigns exactly the value of `l - r`. -/
theorem sub_clears_right_bits (s : EnumSpec) (l r : Nat) (hl : l < 2 ^ s.width) :
    (s.bitClip = false → op_sub s l r = l &&& ((2 ^ s.width - 1) ^^^ r)) ∧
      (l &&& max_value s = l → op_sub s l r = l &&& ((2 ^ s.width - 1) ^^^ r)) ∧
      (s.bitClip = true → op_sub s l r = l &&& flip s r) ∧
      op_sub_assign s l r = op_sub s l r := by
  refine ⟨?_, ?_, ?_, rfl⟩
  · intro hc
    simp [op_sub, op_compl, hc, Nat.xor_comm]
  · intro hval
    cases hc : s.bitClip
    · simp [op_sub, op_compl, hc, Nat.xor_comm]
    · unfold op_sub op_compl
      rw [if_pos hc]
      apply Nat.eq_of_testBit_eq
      intro i
      rw [Nat.testBit_land, Nat.testBit_land, Nat.testBit_xor, Nat.testBit_xor,
        Nat.testBit_two_pow_sub_one]
      cases hli : l.testBit i
      · simp
      · have hiw : i < s.width := lt_width_of_testBit hl hli
        have hmi : (max_value s).testBit i = true := by
          have h2 := congrArg (fun x => x.testBit i) hval
          simp only [Nat.testBit_land, hli, Bool.true_and] at h2
          exact h2
        rw [hmi]
        simp [hiw, Bool.xor_comm]
  · intro hc
    simp [op_sub, op_compl, flip, hc]

/-- Closed witness for `sub_clears_right_bits`: a clipping spec with a
valid left operand, where `l - r` really is `*l & ~*r`. -/
theorem sub_clears_right_bits_witness :
    (2 : Nat) < 2 ^ (4 : Nat) ∧ (2 : Nat) &&& max_value ⟨4, false, 3, true⟩ = 2 ∧
      op_sub ⟨4, false, 3, true⟩ 2 6 = 2 &&& ((2 ^ (4 : Nat) - 1) ^^^ 6) :=
  ⟨by decide, by decide,
    (sub_clears_right_bits ⟨4, false, 3, true⟩ 2 6 (by decide)).2.1 (by decide)⟩

/-- C2 counterexample: with `wrapclip::limit` and the non-contiguous
valid-bits mask `0b101` (constructible from the bit-name list
`"red,,blue"`), the in-range index 2 satisfies
`1 ≤ 2 ≤ bits_length = 3`, yet `make_at(2)` is `0`, not `2^(2-1)`:
`make` masks the bit away. -/
theorem make_at_clip_gap_ce :
    (1 ≤ 2 ∧ 2 ≤ bits_length ⟨4, false, 5, true⟩) ∧
      make_at ⟨4, false, 5, true⟩ 2 ≠ some (2 ^ (2 - 1)) := by
  have hsz : bits_length ⟨4, false, 5, true⟩ = 3 := size_eq_of_lt (by norm_num) (by norm_num)
  refine ⟨⟨by norm_num, by rw [hsz]; norm_num⟩, by decide⟩

/-- C2 (amended): for every bitmask enum whose underlying type is at
most 32 bits wide (so the 32-bit `int` shift in `make_at` is defined
and agrees with the single bit), whose valid bits are contiguous from
the lsb (`valid_bits = 2^bits_length - 1`, the documented prerequisite)
and fit the underlying width, and every index `ndx` with
`1 ≤ ndx ≤ bits_length`, `make_at(ndx)` returns exactly the single bit
`2^(ndx-1)`. -/
theorem make_at_pow_two (s : EnumSpec) (ndx : Nat)
    (hw : s.width ≤ 32)
    (hvb : s.validBits < 2 ^ s.width)
    (hcontig : s.validBits = 2 ^ bits_length s - 1)
    (h1 : 1 ≤ ndx) (h2 : ndx ≤ bits_length s) :
    make_at s ndx = some (2 ^ (ndx - 1)) := by
  have hpow : (0 : Nat) < 2 ^ bits_length s := by positivity
  have hk : 2 ^ bits_length s ≤ 2 ^ s.width := by
    rw [hcontig] at hvb
    omega
  have hbl : bits_length s ≤ s.width := by
    unfold bits_length
    exact Nat.size_le.mpr hvb
  obtain ⟨c, rfl⟩ : ∃ c, ndx = c + 1 := ⟨ndx - 1, by omega⟩
  have hcw : c < s.width := by omega
  rw [make_at_defined s c hw hcw, Nat.add_sub_cancel]
  congr 1
  have hlt : 2 ^ c < 2 ^ s.width :=
    lt_of_lt_of_le (Nat.pow_lt_pow_right (by norm_num) (by omega)) hk
  have hpat : to_pattern s (((2 ^ c : Nat) : Int)) = 2 ^ c := to_pattern_ofNat s _ hlt
  unfold make
  cases hc : s.bitClip
  · simpa [hc] using hpat
  · rw [if_pos rfl]
    unfold make_safely
    rw [hpat]
    have hmv : max_value s = s.validBits := Nat.mod_eq_of_lt hvb
    rw [hmv, hcontig]
    apply Nat.eq_of_testBit_eq
    intro i
    rw [Nat.testBit_land, Nat.testBit_two_pow_sub_one]
    by_cases hi : c = i
    · subst hi
      simp [Nat.testBit_two_pow_self]
      omega
    · simp [Nat.testBit_two_pow_of_ne hi]

/-- Closed witness for `make_at_pow_two` at a contiguous clipping spec. -/
theorem make_at_pow_two_witness :
    ((4 : Nat) ≤ 32 ∧ (7 : Nat) < 2 ^ (4 : Nat) ∧
        (7 : Nat) = 2 ^ bits_length ⟨4, false, 7, true⟩ - 1 ∧
        1 ≤ 2 ∧ 2 ≤ bits_length ⟨4, false, 7, true⟩) ∧
      make_at ⟨4, false, 7, true⟩ 2 = some (2 ^ (2 - 1)) := by
  have hsz : bits_length ⟨4, false, 7, true⟩ = 3 := size_eq_of_lt (by norm_num) (by norm_num)
  exact ⟨⟨by norm_num, by decide, by rw [hsz]; norm_num, by norm_num, by rw [hsz]; norm_num⟩,
    make_at_pow_two ⟨4, false, 7, true⟩ 2 (by norm_num) (by decide) (by rw [hsz]; decide)
      (by norm_num) (by rw [hsz]; norm_num)⟩

/-- C9 counterexample: under `wrapclip::limit`, a mask `m` carrying an
invalid bit is not restored: with `valid_bits` 3, `clear(set(0, 4), 4)`
is `4` while `clear(0, 4)` is `0`. -/
theorem clear_set_clip_ce :
    clear ⟨3, false, 3, true⟩ (set ⟨3, false, 3, true⟩ 0 4) 4 ≠
      clear ⟨3, false, 3, true⟩ 0 4 := by
  decide

/-- C9 (amended): `clear(set(v, m), m) = clear(v, m)` for all values
whenever clip mode is not `limit`; under `limit` it holds whenever `m`
has no invalid bits. -/
theorem clear_set_restores (s : EnumSpec) (v m : Nat) (hm : m < 2 ^ s.width)
    (h : s.bitClip = false ∨ m &&& max_value s = m) :
    clear s (set s v m) m = clear s v m := by
  unfold clear set op_sub
  apply Nat.eq_of_testBit_eq
  intro i
  rw [Nat.testBit_land, Nat.testBit_land, Nat.testBit_lor]
  cases hmi : m.testBit i
  · simp
  · have hiw : i < s.width := lt_width_of_testBit hm hmi
    have hc0 : (op_compl s m).testBit i = false := by
      unfold op_compl
      rcases h with hc | hval
      · rw [hc]
        simp [Nat.testBit_xor, Nat.testBit_two_pow_sub_one, hmi, hiw]
      · cases hc2 : s.bitClip
        · simp [Nat.testBit_xor, Nat.testBit_two_pow_sub_one, hmi, hiw]
        · have hmvi : (max_value s).testBit i = true := by
            have h2 := congrArg (fun x => x.testBit i) hval
            simp only [Nat.testBit_land, hmi, Bool.true_and] at h2
            exact h2
          simp [Nat.testBit_xor, hmi, hmvi]
    simp [hc0]

/-- Closed witness for `clear_set_restores` at a clipping spec with a
valid mask. -/
theorem clear_set_restores_witness :
    ((2 : Nat) < 2 ^ (3 : Nat) ∧ (2 : Nat) &&& max_value ⟨3, false, 3, true⟩ = 2) ∧
      clear ⟨3, false, 3, true⟩ (set ⟨3, false, 3, true⟩ 5 2) 2 =
        clear ⟨3, false, 3, true⟩ 5 2 :=
  ⟨⟨by decide, by decide⟩,
    clear_set_restores ⟨3, false, 3, true⟩ 5 2 (by decide) (Or.inr (by decide))⟩

/-- C10: a bit-name literal beginning with the comma delimiter is
rejected by the asserted precondition of
`calc_valid_bits_from_bit_names` (the `static_assert`, modelled as
`none`); no spec is produced at all, hence none whose first name is the
empty piece. -/
theorem bit_names_leading_comma_rejected (str : String)
    (h : starts_with_comma str = true) :
    calc_valid_bits_from_bit_names str = none := by
  simp [calc_valid_bits_from_bit_names, h]

/-- Closed witness for `bit_names_leading_comma_rejected`. -/
theorem bit_names_leading_comma_rejected_witness :
    starts_with_comma ",red" = true ∧ calc_valid_bits_from_bit_names ",red" = none :=
  ⟨by decide, bit_names_leading_comma_rejected ",red" (by decide)⟩

/-- C4: the direct-lookup index of the per-combination renderer is not
always below the name-table length: for the value-name list
`",one,two"` (three names, per-combination mode since the bit width is
2), `valid_bits` is `1 | 2 = 3`, and for the value `3` the lookup index
`*v & valid_bits` equals `3`, which is not less than the table length
`3` — `names[valid_part]` reads out of bounds there. -/
theorem value_names_index_oob :
    (fixed_split ",one,two").length = 3 ∧
      calc_valid_bits_from_value_names ",one,two" = 3 ∧
      (fixed_split ",one,two").length ≠
        bits_length ⟨8, false, calc_valid_bits_from_value_names ",one,two", false⟩ ∧
      ¬(to_integer_size ⟨8, false, calc_valid_bits_from_value_names ",one,two", false⟩ 3 &&&
          calc_valid_bits_from_value_names ",one,two" <
        (fixed_split ",one,two").length) := by
  have hvb : calc_valid_bits_from_value_names ",one,two" = 3 := by decide
  have hsz : bits_length (⟨8, false, 3, false⟩ : EnumSpec) = 2 :=
    size_eq_of_lt (by norm_num) (by norm_num)
  refine ⟨by decide, hvb, ?_, ?_⟩
  · rw [hvb, hsz]
    decide
  · rw [hvb]
    decide

/-- C6: per-combination rendering (table non-empty, length different
from the bit width): whenever the value's valid-bit portion indexes a
non-empty name, the renderer appends exactly that name (the exact match
wins, the linear search is skipped) and consumes those bits, leaving
only the residual, which is appended in hex when non-zero. -/
theorem value_append_exact (s : EnumSpec) (names : List String) (target : String) (v : Nat)
    (hN : names.length ≠ 0) (hmode : names.length ≠ bits_length s)
    (hname : names.getD (to_integer_size s v &&& s.validBits) "" ≠ "") :
    names_spec_append s names target v =
      some (if (to_integer_size s v &&& ((mask64 - 1) ^^^ s.validBits)) % 2 ^ s.width = 0 then
        target ++ names.getD (to_integer_size s v &&& s.validBits) ""
      else
        target ++ names.getD (to_integer_size s v &&& s.validBits) "" ++ " + " ++
          hex_str ((to_integer_size s v &&& ((mask64 - 1) ^^^ s.validBits)) % 2 ^ s.width)) := by
  unfold names_spec_append
  rw [if_neg hmode, if_pos hN]
  refine congrArg some ?_
  simp only [do_value_append]
  rw [if_pos hname]
  by_cases hres : (to_integer_size s v &&& ((mask64 - 1) ^^^ s.validBits)) % 2 ^ s.width = 0
  · simp [hres, append_skip_first, append_num16]
  · simp [hres, append_skip_first, append_num16]

theorem has_two_pow (v c : Nat) : has v (2 ^ c) = v.testBit c := by
  unfold has
  cases htb : v.testBit c
  · have h0 : v &&& 2 ^ c = 0 := by
      apply Nat.eq_of_testBit_eq
      intro i
      rw [Nat.testBit_land, Nat.zero_testBit]
      by_cases hic : i = c
      · subst hic
        simp [htb]
      · simp [Nat.testBit_two_pow_of_ne (Ne.symm hic)]
    simp [h0]
  · have h1 : (v &&& 2 ^ c).testBit c = true := by
      rw [Nat.testBit_land, htb, Nat.testBit_two_pow_self]
      rfl
    have hne : v &&& 2 ^ c ≠ 0 := by
      intro h0
      rw [h0, Nat.zero_testBit] at h1
      exact Bool.noConfusion h1
    exact bne_iff_ne.mpr hne


theorem clear_bit_eq (v c W : Nat) (hv : v < 2 ^ W) (hc : c < W)
    (htb : v.testBit c = true) :
    v &&& ((2 ^ W - 1) ^^^ 2 ^ c) = v ^^^ 2 ^ c := by
  apply Nat.eq_of_testBit_eq
  intro i
  rw [Nat.testBit_land, Nat.testBit_xor, Nat.testBit_xor, Nat.testBit_two_pow_sub_one]
  by_cases hic : i = c
  · subst hic
    simp [htb, Nat.testBit_two_pow_self, hc]
  · have h2 : (2 ^ c).testBit i = false := Nat.testBit_two_pow_of_ne (Ne.symm hic)
    rw [h2]
    by_cases hiw : i < W
    · simp [hiw]
    · have h3 : v.testBit i = false := testBit_false_of_lt hv (by omega)
      simp [h3, hiw]

theorem append_all_false_eq (ns : List String) :
    ∀ t : String, append_all t false ns = t ++ plus_join ns := by
  induction ns with
  | nil =>
    intro t
    simp [append_all, plus_join, String.append_empty]
  | cons n rest ih =>
    intro t
    rw [append_all, if_neg (by simp), ih, plus_join]
    simp [String.append_assoc]

theorem append_all_true_eq (ns : List String) (t : String) :
    append_all t true ns = t ++ spec_joined ns := by
  cases ns with
  | nil => simp [append_all, spec_joined, String.append_empty]
  | cons n rest =>
    rw [append_all, if_pos rfl, append_all_false_eq, spec_joined]
    simp [String.append_assoc]

/-- The loop of `do_bit_append` agrees with the specification's scan:
it appends the collected names (separator-joined, skipping the first),
ends with the `first` flag still up iff nothing was printed, and leaves
the working copy with exactly the printed bits cleared. -/
theorem bit_loop_eq_spec_scan (s : EnumSpec) (names : List String)
    (hw : s.width ≤ 32)
    (hvb : s.validBits < 2 ^ s.width)
    (hrel : ∀ p, p < names.length →
      (s.validBits.testBit p = true ↔ names.getD (names.length - 1 - p) "" ≠ ""))
    (hN : names.length = Nat.size s.validBits) :
    ∀ c, c ≤ names.length → ∀ t first v, v < 2 ^ s.width →
      bit_loop s names names.length c (t, first, v) =
        some (append_all t first (spec_scan names c v).1,
          first && (spec_scan names c v).1.isEmpty,
          (spec_scan names c v).2) := by
  have hsw : names.length ≤ s.width := by
    rw [hN]
    exact Nat.size_le.mpr hvb
  intro c
  induction c with
  | zero =>
    intro _ t first v _
    simp [bit_loop, spec_scan, append_all]
  | succ c ih =>
    intro hc t first v hv
    have hlt : c < names.length := by omega
    have hcw : c < s.width := by omega
    have hpow2lt : 2 ^ c < 2 ^ s.width := Nat.pow_lt_pow_right (by norm_num) hcw
    have hidx : names.length - 1 - c = names.length - (c + 1) := by omega
    rw [bit_loop, make_at_defined s c hw hcw, Option.some_bind]
    by_cases hnm : names.getD (names.length - (c + 1)) "" = ""
    · rw [if_neg (fun h => h.2 hnm), spec_scan, if_neg (fun h => h.2 hnm)]
      exact ih (by omega) t first v hv
    · have hvbc : s.validBits.testBit c = true := by
        have h := hrel c hlt
        rw [hidx] at h
        exact h.mpr hnm
      have hM : make s ((2 ^ c : Nat) : Int) = 2 ^ c := by
        have hp : to_pattern s ((2 ^ c : Nat) : Int) = 2 ^ c := to_pattern_ofNat s _ hpow2lt
        unfold make make_safely
        cases hclip : s.bitClip
        · simpa using hp
        · rw [if_pos rfl, hp]
          have hmv : max_value s = s.validBits := Nat.mod_eq_of_lt hvb
          rw [hmv]
          apply Nat.eq_of_testBit_eq
          intro i
          rw [Nat.testBit_land]
          by_cases hic : i = c
          · subst hic
            simp [Nat.testBit_two_pow_self, hvbc]
          · simp [Nat.testBit_two_pow_of_ne (Ne.symm hic)]
      rw [hM]
      cases htb : v.testBit c
      · rw [if_neg (by rw [has_two_pow, htb]; simp), spec_scan, if_neg (by simp [htb])]
        exact ih (by omega) t first v hv
      · rw [if_pos ⟨by rw [has_two_pow]; exact htb, hnm⟩, spec_scan, if_pos ⟨htb, hnm⟩]
        rw [clear_bit_eq v c s.width hv hcw htb]
        have hv2 : v ^^^ 2 ^ c < 2 ^ s.width := Nat.xor_lt_two_pow hv hpow2lt
        rw [ih (by omega) _ _ _ hv2]
        cases first
        · simp [append_skip_first, append_all]
        · simp [append_skip_first, append_all]

/-- C7 counterexample: on a 64-bit enum with a 32-name per-bit table
(valid bits 31 and 0, `bits_length` 32), the mask `make_at(32)` is the
sign-extended `INT_MIN`, covering bits 31..63: rendering `2^63 + 1`
prints the bit-31 name `"b31"` although bit 31 is not set in the value
(the invalid bit 63 is silently consumed), so the rendering differs
from the claimed msb-to-lsb per-set-bit scan (`spec_bit_render`). -/
theorem bit_append_sign_extension_ce :
    (2 ^ 63 + 1 : Nat).testBit 31 = false ∧
      bitNames32.length = bits_length ⟨64, false, 2 ^ 31 ||| 1, false⟩ ∧
      do_bit_append ⟨64, false, 2 ^ 31 ||| 1, false⟩ bitNames32 "" (2 ^ 63 + 1) =
        some "b31 + b0" ∧
      do_bit_append ⟨64, false, 2 ^ 31 ||| 1, false⟩ bitNames32 "" (2 ^ 63 + 1) ≠
        some (spec_bit_render bitNames32 "" (2 ^ 63 + 1)) := by
  have hvb : (2 ^ 31 ||| 1 : Nat) = 2147483649 := by decide
  have hsz : bits_length ⟨64, false, 2 ^ 31 ||| 1, false⟩ = 32 := by
    unfold bits_length
    rw [show (⟨64, false, 2 ^ 31 ||| 1, false⟩ : EnumSpec).validBits = 2147483649 from hvb]
    exact size_eq_of_lt (by norm_num) (by norm_num)
  refine ⟨by decide, by rw [hsz]; decide, by decide, by decide⟩

/-- C7 (amended): per-bit rendering (table length equal to the bit
width, as produced by `make_bitmask_enum_spec` from a bit-name list, so
a bit is valid iff its name is non-empty), for underlying types at most
32 bits wide (where the 32-bit `int` shift in `make_at` yields exactly
the single bit): `do_bit_append` scans bits from most- to
least-significant, appends the name of each set bit that has a
non-empty name joined by `" + "`, clears each printed bit from a
working copy, and appends the residual value in hexadecimal iff bits
remain set or nothing was printed — it equals the specification-side
renderer `spec_bit_render`. -/
theorem bit_append_matches_spec (s : EnumSpec) (names : List String) (target : String)
    (v : Nat) (hw : s.width ≤ 32) (hvb : s.validBits < 2 ^ s.width) (hv : v < 2 ^ s.width)
    (hmode : names.length = bits_length s)
    (hrel : ∀ p, p < names.length →
      (s.validBits.testBit p = true ↔ names.getD (names.length - 1 - p) "" ≠ "")) :
    names_spec_append s names target v = some (spec_bit_render names target v) := by
  unfold names_spec_append
  rw [if_pos hmode]
  unfold do_bit_append spec_bit_render
  rw [bit_loop_eq_spec_scan s names hw hvb hrel hmode names.length le_rfl target true v hv,
    Option.map_some']
  refine congrArg some ?_
  cases hemp : (spec_scan names names.length v).1 with
  | nil =>
    simp [hemp, append_all, append_skip_first, append_num16]
  | cons n rest =>
    by_cases hres : (spec_scan names names.length v).2 = 0
    · simp [hemp, hres, append_all_true_eq, append_skip_first, append_num16]
    · simp [hemp, hres, append_all_true_eq, append_skip_first, append_num16,
        String.append_assoc]

/-- Closed witness for `bit_append_matches_spec`: the `"red,green,blue"`
table renders the value with red and blue set as `"red + blue"`, and
with an extra bit 3 set as `"red + blue + 8"`. -/
theorem bit_append_matches_spec_witness :
    ((8 : Nat) ≤ 32 ∧ (7 : Nat) < 2 ^ (8 : Nat) ∧
        (["red", "green", "blue"] : List String).length =
          bits_length ⟨8, false, 7, false⟩) ∧
      names_spec_append ⟨8, false, 7, false⟩ ["red", "green", "blue"] "" 5 =
          some "red + blue" ∧
        names_spec_append ⟨8, false, 7, false⟩ ["red", "green", "blue"] "" 13 =
          some "red + blue + 8" := by
  have hsz : bits_length (⟨8, false, 7, false⟩ : EnumSpec) = 3 :=
    size_eq_of_lt (by norm_num) (by norm_num)
  have hrel : ∀ p, p < (["red", "green", "blue"] : List String).length →
      ((7 : Nat).testBit p = true ↔
        (["red", "green", "blue"] : List String).getD
          ((["red", "green", "blue"] : List String).length - 1 - p) "" ≠ "") := by
    intro p hp
    have hp3 : p < 3 := by simpa using hp
    interval_cases p <;> decide
  refine ⟨⟨by norm_num, by decide, by rw [hsz]; decide⟩, ?_, ?_⟩
  · rw [bit_append_matches_spec ⟨8, false, 7, false⟩ ["red", "green", "blue"] "" 5
      (by norm_num) (by decide) (by decide) (by rw [hsz]; decide) hrel]
    decide
  · rw [bit_append_matches_spec ⟨8, false, 7, false⟩ ["red", "green", "blue"] "" 13
      (by norm_num) (by decide) (by decide) (by rw [hsz]; decide) hrel]
    decide

/-- Closed witness for `value_append_exact`: the `",alpha,beta,gamma"`
table on raw value `3` renders exactly `"gamma"`. -/
theorem value_append_exact_witness :
    ((fixed_split ",alpha,beta,gamma").length ≠ 0 ∧
        (fixed_split ",alpha,beta,gamma").getD
          (to_integer_size ⟨8, false, 3, false⟩ 3 &&& 3) "" ≠ "") ∧
      names_spec_append ⟨8, false, 3, false⟩ (fixed_split ",alpha,beta,gamma") "" 3 =
        some "gamma" := by
  refine ⟨⟨by decide, by decide⟩, ?_⟩
  have hsz : bits_length (⟨8, false, 3, false⟩ : EnumSpec) = 2 :=
    size_eq_of_lt (by norm_num) (by norm_num)
  have h := value_append_exact ⟨8, false, 3, false⟩ (fixed_split ",alpha,beta,gamma") "" 3
    (by decide) (by rw [hsz]; decide) (by decide)
  rw [h]
  decide

end Corvid.Bitmask
